import Mathlib

/-!
Shallow embedding of the turbo-bucketizer core: the bucket engine
(`bucket_index`, `distribution` over a dataset and over a half-open range),
the statistics computer (`compute_stats`), and the dotted-quad parser
(`parse_ipv4`).  Machine `uint32_t` values are modelled as `Nat` with explicit
`% 2^32` where the C++ cast truncates; `size_t` is modelled as unbounded `Nat`
(64-bit host); the `double` computations of the statistics component are
modelled exactly over `ℚ`, with the final `sqrt` of the variance expressed via
`Real.sqrt`.
-/

set_option maxRecDepth 100000

/-- Configuration of the engine: affine multiplier `a`, offset `b`,
bucket-bit-width `k` (fields as in `tb::Config`). -/
structure Config where
  a : ℕ
  b : ℕ
  k : ℕ
deriving DecidableEq, Repr

/-- `tb::Config::bucket_count`: `2^k`, clamped to `2^32` when `k ≥ 32`. -/
def Config.bucket_count (cfg : Config) : ℕ :=
  if 32 ≤ cfg.k then 2 ^ 32 else 2 ^ cfg.k

/-- `bucket_from_y` (anonymous namespace of bucket_engine.cpp): the top `k`
bits of `y`; the 64-bit shift of the source is the division `y / 2^(32-k)`. -/
def bucket_from_y (y : ℕ) (k : ℕ) : ℕ :=
  if k = 0 then 0
  else if 32 ≤ k then y
  else y / 2 ^ (32 - k)

/-- `BucketEngine::bucket_index`: `y = (a*ip + b) mod 2^32` with wrapping
32-bit arithmetic, then `bucket_from_y y k`. -/
def bucket_index (cfg : Config) (ip : ℕ) : ℕ :=
  bucket_from_y ((cfg.a * ip + cfg.b) % 2 ^ 32) cfg.k

/-- One loop iteration of the histogram builders: increment slot `b` if it is
inside the histogram, otherwise drop the sample (the defensive branch of the
source). -/
def bump (cs : List ℕ) (b : ℕ) : List ℕ :=
  if b < cs.length then cs.set b (cs.getD b 0 + 1) else cs

/-- `BucketEngine::distribution(const std::vector<IPv4>&)`: zero histogram of
length `bucket_count`, then one `bump` per address. -/
def distribution (cfg : Config) (ips : List ℕ) : List ℕ :=
  let m := cfg.bucket_count
  let counts := List.replicate m 0
  if m = 0 then counts
  else ips.foldl (fun cs ip => bump cs (bucket_index cfg ip)) counts

/-- `BucketEngine::distribution(IPv4 start, IPv4 end)`: empty result when
`end ≤ start`, otherwise one `bump` per value of `[start, end)`; the widened
(64-bit) loop counter of the source corresponds to iterating the `Nat` range
directly. -/
def distributionRange (cfg : Config) (start end_ : ℕ) : List ℕ :=
  let m := cfg.bucket_count
  let counts := List.replicate m 0
  if m = 0 then counts
  else if end_ ≤ start then counts
  else (List.range' start (end_ - start)).foldl
    (fun cs v => bump cs (bucket_index cfg v)) counts

/-- Maximum of a list of counts, as `std::minmax_element` finds it on a
nonempty range (the value on `[]` is irrelevant: that case is filtered out). -/
def listMax : List ℕ → ℕ
  | [] => 0
  | [c] => c
  | c :: cs => max c (listMax cs)

/-- Minimum of a list of counts, as `std::minmax_element` finds it on a
nonempty range (the value on `[]` is irrelevant: that case is filtered out). -/
def listMin : List ℕ → ℕ
  | [] => 0
  | [c] => c
  | c :: cs => min c (listMin cs)

/-- `tb::StatsResult`.  The `double` fields are modelled exactly over `ℚ`;
the source's `stddev` field is `sqrt` of the `variance` stored here (see
`StatsResult.stddev`). -/
structure StatsResult where
  sample_count : ℕ
  bucket_count : ℕ
  mean : ℚ
  variance : ℚ
  chi2 : ℚ
  uniformity : ℚ
deriving DecidableEq, Repr

/-- `tb::compute_stats` (stats.cpp): bucket count, sample count, early return
on the degenerate cases, then mean, variance (the accumulator divided by `m`),
Pearson chi-square, and the clamped uniformity heuristic. -/
def compute_stats (counts : List ℕ) : StatsResult :=
  let m := counts.length
  let n := counts.sum
  if m = 0 ∨ n = 0 then
    { sample_count := n, bucket_count := m, mean := 0, variance := 0, chi2 := 0, uniformity := 0 }
  else
    let mean : ℚ := (n : ℚ) / (m : ℚ)
    let variance : ℚ := ((counts.map (fun c => ((c : ℚ) - mean) ^ 2)).sum) / (m : ℚ)
    let chi2 : ℚ := (counts.map (fun c => ((c : ℚ) - mean) ^ 2 / mean)).sum
    let max_dev : ℚ := max |((listMax counts : ℚ) - mean)| |((listMin counts : ℚ) - mean)|
    let u0 : ℚ := if 0 < mean then 1 - max_dev / mean else 1
    let u1 : ℚ := if u0 < 0 then 0 else u0
    let u2 : ℚ := if 1 < u1 then 1 else u1
    { sample_count := n, bucket_count := m, mean := mean, variance := variance, chi2 := chi2,
      uniformity := u2 * 100 }

/-- The source's `r.stddev = std::sqrt(var)`: square root of the variance
field. -/
noncomputable def StatsResult.stddev (r : StatsResult) : ℝ := Real.sqrt (r.variance : ℝ)

/-- Decimal digit test (`std::stoull` with base 10 accepts exactly these). -/
def isDigitChar (c : Char) : Bool := '0' ≤ c && c ≤ '9'

/-- Whitespace skipped by `std::stoull` (C locale `isspace`). -/
def isSpaceChar (c : Char) : Bool :=
  c == ' ' || c == '\t' || c == '\n' || c == '\x0b' || c == '\x0c' || c == '\r'

/-- Numeric value of a run of decimal digits. -/
def digitsVal (ds : List Char) : ℕ :=
  ds.foldl (fun acc c => acc * 10 + (c.toNat - 48)) 0

/-- Worker for `getlineTokens`: accumulate the current token (reversed) until
a dot or the end of input.  A dot whose tail is empty ends the token list
without an extra empty token, because the next `std::getline` call fails at
end-of-stream. -/
def goTokens : List Char → List Char → List (List Char)
  | [], acc => [acc.reverse]
  | c :: cs, acc =>
    if c = '.' then
      match cs with
      | [] => [acc.reverse]
      | _ :: _ => acc.reverse :: goTokens cs []
    else goTokens cs (c :: acc)

/-- The token sequence produced by the `while (std::getline(iss, token, '.'))`
loop of `parse_ipv4`: on empty input no token is produced, and a trailing dot
does not produce a final empty token. -/
def getlineTokens (s : List Char) : List (List Char) :=
  match s with
  | [] => []
  | _ :: _ => goTokens s []

/-- `std::stoull(token)` with base 10: skip leading whitespace, optional sign,
then a nonempty run of decimal digits (trailing characters are ignored);
`none` models both `invalid_argument` (no digits) and `out_of_range`
(value above `2^64 - 1`); a minus sign negates modulo `2^64`. -/
def stoullModel (t : List Char) : Option ℕ :=
  let t1 := t.dropWhile (fun c => isSpaceChar c)
  let p : Bool × List Char :=
    match t1 with
    | '-' :: r => (true, r)
    | '+' :: r => (false, r)
    | r => (false, r)
  let ds := p.2.takeWhile (fun c => isDigitChar c)
  if ds.isEmpty then none
  else
    let v := digitsVal ds
    if 2 ^ 64 ≤ v then none
    else some (if p.1 then (2 ^ 64 - v) % 2 ^ 64 else v)

/-- The token loop of `parse_ipv4`: reject a fifth token, an empty token, a
token `stoull` cannot parse, and an octet value above 255; otherwise append
the parsed value to the collected parts. -/
def parseLoop : List (List Char) → List ℕ → Option (List ℕ)
  | [], acc => some acc
  | t :: ts, acc =>
    if 4 ≤ acc.length then none
    else if t.isEmpty then none
    else
      match stoullModel t with
      | none => none
      | some v => if 255 < v then none else parseLoop ts (acc ++ [v])

/-- The tail of `parse_ipv4`: require exactly 4 collected octets, then
combine them with shifts and bitwise or, first octet in the most-significant
byte. -/
def parseFinish (r : Option (List ℕ)) : Option ℕ :=
  match r with
  | some parts =>
    if parts.length = 4 then
      some (parts.getD 0 0 <<< 24 ||| parts.getD 1 0 <<< 16 |||
            parts.getD 2 0 <<< 8 ||| parts.getD 3 0)
    else none
  | none => none

/-- `tb::parse_ipv4` (utils.cpp), with `none` for every thrown
`std::runtime_error`. -/
def parse_ipv4 (s : List Char) : Option ℕ :=
  parseFinish (parseLoop (getlineTokens s) [])

/-- Spec-side formula for the uniformity metric, written from the spec's
words: `max_dev = max(|max(counts) − mean|, |min(counts) − mean|)`; for
`mean > 0` the fraction is `1 − max_dev/mean` clamped to `[0, 1]`, for
`mean = 0` it is `1`; the result is the fraction times 100. -/
def uniformitySpec (counts : List ℕ) : ℚ :=
  let mean : ℚ := (counts.sum : ℚ) / (counts.length : ℚ)
  let max_dev : ℚ := max |((listMax counts : ℚ) - mean)| |((listMin counts : ℚ) - mean)|
  let frac : ℚ := if 0 < mean then min 1 (max 0 (1 - max_dev / mean)) else 1
  frac * 100

/-- Plain splitting of a character list at every dot, keeping empty tokens
(the claim's notion of "dot-separated tokens"). -/
def goSplit : List Char → List Char → List (List Char)
  | [], acc => [acc.reverse]
  | c :: cs, acc => if c = '.' then acc.reverse :: goSplit cs [] else goSplit cs (c :: acc)

/-- All dot-separated tokens of a string, trailing empty token included. -/
def splitDots (s : List Char) : List (List Char) := goSplit s []

/-- Claim-side well-formedness of a dotted quad, written from the claim's
words: exactly 4 dot-separated tokens, each nonempty, composed solely of
decimal digits, with value at most 255. -/
def wellformedSpec (s : List Char) : Bool :=
  let ts := splitDots s
  ts.length = 4 &&
    ts.all (fun t => !t.isEmpty && t.all (fun c => isDigitChar c) && digitsVal t ≤ 255)

/-- The amended description of `parse_ipv4`: getline-style tokenization must
yield exactly 4 tokens, each of which `stoull` parses (prefix semantics,
trailing junk ignored) to a value at most 255; the values are combined with
the first octet in the most-significant byte. -/
def parse_ipv4Amended (s : List Char) : Option ℕ :=
  match getlineTokens s with
  | [t0, t1, t2, t3] =>
    match stoullModel t0, stoullModel t1, stoullModel t2, stoullModel t3 with
    | some v0, some v1, some v2, some v3 =>
      if v0 ≤ 255 ∧ v1 ≤ 255 ∧ v2 ≤ 255 ∧ v3 ≤ 255 then
        some (v0 <<< 24 ||| v1 <<< 16 ||| v2 <<< 8 ||| v3)
      else none
    | _, _, _, _ => none
  | _ => none

theorem bump_length (cs : List ℕ) (b : ℕ) : (bump cs b).length = cs.length := by
  unfold bump; split <;> simp

theorem getD_set (cs : List ℕ) (b j x : ℕ) (hb : b < cs.length) :
    (cs.set b x).getD j 0 = if j = b then x else cs.getD j 0 := by
  induction cs generalizing b j with
  | nil => simp at hb
  | cons c cs ih =>
    cases b with
    | zero =>
      cases j with
      | zero => simp
      | succ j => simp
    | succ b =>
      cases j with
      | zero => simp
      | succ j =>
        rw [List.set_cons_succ, List.getD_cons_succ, List.getD_cons_succ,
          ih _ _ (by simpa using hb)]
        by_cases h : j = b <;> simp [h]

theorem bump_getD (cs : List ℕ) (b j : ℕ) (hb : b < cs.length) :
    (bump cs b).getD j 0 = cs.getD j 0 + if j = b then 1 else 0 := by
  unfold bump
  rw [if_pos hb, getD_set _ _ _ _ hb]
  by_cases h : j = b <;> simp [h]

theorem bump_sum (cs : List ℕ) (b : ℕ) (hb : b < cs.length) :
    (bump cs b).sum = cs.sum + 1 := by
  unfold bump
  rw [if_pos hb]
  induction cs generalizing b with
  | nil => simp at hb
  | cons c cs ih =>
    cases b with
    | zero => simp; omega
    | succ b =>
      rw [List.set_cons_succ, List.getD_cons_succ, List.sum_cons, List.sum_cons,
        ih _ (by simpa using hb)]
      omega

theorem foldBump_length (f : ℕ → ℕ) (l : List ℕ) (cs : List ℕ) :
    (l.foldl (fun cs v => bump cs (f v)) cs).length = cs.length := by
  induction l generalizing cs with
  | nil => rfl
  | cons a l ih => rw [List.foldl_cons, ih, bump_length]

theorem foldBump_sum (f : ℕ → ℕ) (l : List ℕ) (cs : List ℕ)
    (h : ∀ v ∈ l, f v < cs.length) :
    (l.foldl (fun cs v => bump cs (f v)) cs).sum = cs.sum + l.length := by
  induction l generalizing cs with
  | nil => simp
  | cons a l ih =>
    rw [List.foldl_cons,
      ih _ (fun v hv => by rw [bump_length]; exact h v (List.mem_cons_of_mem _ hv)),
      bump_sum _ _ (h a (List.mem_cons_self _ _)), List.length_cons]
    omega

theorem foldBump_getD (f : ℕ → ℕ) (l : List ℕ) (cs : List ℕ) (j : ℕ)
    (h : ∀ v ∈ l, f v < cs.length) :
    (l.foldl (fun cs v => bump cs (f v)) cs).getD j 0
      = cs.getD j 0 + l.countP (fun v => f v == j) := by
  induction l generalizing cs with
  | nil => simp
  | cons a l ih =>
    rw [List.foldl_cons,
      ih _ (fun v hv => by rw [bump_length]; exact h v (List.mem_cons_of_mem _ hv)),
      bump_getD _ _ _ (h a (List.mem_cons_self _ _)), List.countP_cons]
    by_cases hj : f a = j <;> simp [hj] <;> omega

theorem replicate_getD (m j : ℕ) : (List.replicate m (0 : ℕ)).getD j 0 = 0 := by
  induction m generalizing j with
  | zero => simp
  | succ m ih =>
    cases j with
    | zero => simp
    | succ j => simp [ih j]

theorem bucket_count_pos (cfg : Config) : 0 < cfg.bucket_count := by
  unfold Config.bucket_count; split <;> positivity

theorem bucket_index_lt (cfg : Config) (ip : ℕ) :
    bucket_index cfg ip < cfg.bucket_count := by
  unfold bucket_index bucket_from_y Config.bucket_count
  have hy : (cfg.a * ip + cfg.b) % 2 ^ 32 < 2 ^ 32 := Nat.mod_lt _ (by norm_num)
  by_cases h0 : cfg.k = 0
  · simp [h0]
  · by_cases h32 : 32 ≤ cfg.k
    · simp only [h0, h32, if_true, if_false, if_neg h0, if_pos h32]
      exact hy
    · simp only [if_neg h0, if_neg h32]
      rw [Nat.div_lt_iff_lt_mul (by positivity)]
      calc (cfg.a * ip + cfg.b) % 2 ^ 32 < 2 ^ 32 := hy
        _ = 2 ^ cfg.k * 2 ^ (32 - cfg.k) := by
            rw [← pow_add]
            congr 1
            omega

/-- C1: for every configuration and address, `bucket_index` is the top `k`
bits of `y = (a*x + b) mod 2^32`: `0` when `k = 0`, `y` itself when `k ≥ 32`,
and `y >>> (32 - k)` otherwise. -/
theorem bucket_index_top_bits (cfg : Config) (x : ℕ) :
    bucket_index cfg x =
      if cfg.k = 0 then 0
      else if 32 ≤ cfg.k then (cfg.a * x + cfg.b) % 2 ^ 32
      else ((cfg.a * x + cfg.b) % 2 ^ 32) >>> (32 - cfg.k) := by
  unfold bucket_index bucket_from_y
  split_ifs <;> first | rfl | rw [Nat.shiftRight_eq_div_pow]

/-- C9: distribution over a dataset returns a histogram whose counts sum to
the number of input addresses — the defensive drop branch never fires,
because `bucket_index` is always strictly below `bucket_count`. -/
theorem distribution_sum_eq_length (cfg : Config) (ips : List ℕ) (ip : ℕ) :
    (distribution cfg ips).sum = ips.length ∧
    bucket_index cfg ip < cfg.bucket_count := by
  refine ⟨?_, bucket_index_lt cfg ip⟩
  have hm : ¬ cfg.bucket_count = 0 := Nat.pos_iff_ne_zero.mp (bucket_count_pos cfg)
  simp only [distribution]
  rw [if_neg hm,
    foldBump_sum _ _ _ (fun v hv => by
      rw [List.length_replicate]; exact bucket_index_lt cfg v)]
  simp

/-- C3: for `start < end`, the range distribution has length `bucket_count`,
counts every value of the half-open range `[start, end)` exactly once (the
count of bucket `j` is the number of range values mapping to `j`), and the
counts sum to `end - start`; the iteration is a fold over the finite list
`range' start (end - start)`, total by construction (the widened counter of
the source). -/
theorem distributionRange_counts (cfg : Config) (start end_ j : ℕ) (h : start < end_) :
    (distributionRange cfg start end_).length = cfg.bucket_count ∧
    (distributionRange cfg start end_).sum = end_ - start ∧
    (distributionRange cfg start end_).getD j 0
      = (List.range' start (end_ - start)).countP (fun v => bucket_index cfg v == j) := by
  have hm : ¬ cfg.bucket_count = 0 := Nat.pos_iff_ne_zero.mp (bucket_count_pos cfg)
  have hns : ¬ end_ ≤ start := by omega
  have hlt : ∀ v ∈ List.range' start (end_ - start),
      bucket_index cfg v < (List.replicate cfg.bucket_count 0).length := fun v _ => by
    rw [List.length_replicate]; exact bucket_index_lt cfg v
  simp only [distributionRange]
  rw [if_neg hm, if_neg hns]
  refine ⟨?_, ?_, ?_⟩
  · rw [foldBump_length, List.length_replicate]
  · rw [foldBump_sum _ _ _ hlt]
    simp
  · rw [foldBump_getD _ _ _ _ hlt, replicate_getD]
    simp

/-- C7: for `end ≤ start` the range distribution is the all-zero histogram of
length `bucket_count`. -/
theorem distributionRange_of_le (cfg : Config) (start end_ : ℕ) (h : end_ ≤ start) :
    distributionRange cfg start end_ = List.replicate cfg.bucket_count 0 := by
  simp only [distributionRange]
  split
  · rfl
  · simp [h]

/-- Witness for C3 at a concrete configuration and range. -/
theorem distributionRange_counts_witness :
    0 < 4 ∧
    ((distributionRange ⟨1, 0, 2⟩ 0 4).length = Config.bucket_count ⟨1, 0, 2⟩ ∧
     (distributionRange ⟨1, 0, 2⟩ 0 4).sum = 4 - 0 ∧
     (distributionRange ⟨1, 0, 2⟩ 0 4).getD 1 0
       = (List.range' 0 (4 - 0)).countP (fun v => bucket_index ⟨1, 0, 2⟩ v == 1)) :=
  ⟨by decide, distributionRange_counts ⟨1, 0, 2⟩ 0 4 1 (by decide)⟩

/-- Witness for C7 at the concrete empty range `start = 0, end = 0`. -/
theorem distributionRange_of_le_witness :
    0 ≤ 0 ∧
    distributionRange ⟨1, 0, 2⟩ 0 0 = List.replicate (Config.bucket_count ⟨1, 0, 2⟩) 0 :=
  ⟨by decide, distributionRange_of_le ⟨1, 0, 2⟩ 0 0 (by decide)⟩

theorem listMin_le_of_mem {x : ℕ} {l : List ℕ} (hx : x ∈ l) : listMin l ≤ x := by
  induction l with
  | nil => simp at hx
  | cons c cs ih =>
    cases cs with
    | nil =>
      simp at hx
      simp [listMin, hx]
    | cons d ds =>
      have he : listMin (c :: d :: ds) = min c (listMin (d :: ds)) := rfl
      rcases List.mem_cons.mp hx with rfl | hx'
      · rw [he]; exact min_le_left _ _
      · rw [he]; exact le_trans (min_le_right _ _) (ih hx')

theorem compute_stats_sample_count (h : List ℕ) :
    (compute_stats h).sample_count = h.sum := by
  simp only [compute_stats]
  split <;> rfl

theorem compute_stats_bucket_count (h : List ℕ) :
    (compute_stats h).bucket_count = h.length := by
  simp only [compute_stats]
  split <;> rfl

theorem compute_stats_stddev_nonneg (h : List ℕ) : 0 ≤ (compute_stats h).stddev :=
  Real.sqrt_nonneg _

theorem compute_stats_chi2_nonneg (h : List ℕ) : 0 ≤ (compute_stats h).chi2 := by
  simp only [compute_stats]
  split
  · norm_num
  · rename_i hd
    push_neg at hd
    have hmean : (0 : ℚ) ≤ (h.sum : ℚ) / (h.length : ℚ) := by positivity
    apply List.sum_nonneg
    intro x hx
    simp only [List.mem_map] at hx
    obtain ⟨c, _, rfl⟩ := hx
    exact div_nonneg (sq_nonneg _) hmean

theorem compute_stats_uniformity_bounds (h : List ℕ) :
    0 ≤ (compute_stats h).uniformity ∧ (compute_stats h).uniformity ≤ 100 := by
  simp only [compute_stats]
  split
  · norm_num
  · split_ifs <;> constructor <;> linarith

/-- C4: for every histogram, `compute_stats` returns the sum of the counts as
`sample_count`, the length as `bucket_count`, a uniformity within `[0, 100]`,
a nonnegative standard deviation and a nonnegative chi-square. -/
theorem compute_stats_invariants (h : List ℕ) :
    (compute_stats h).sample_count = h.sum ∧
    (compute_stats h).bucket_count = h.length ∧
    0 ≤ (compute_stats h).uniformity ∧
    (compute_stats h).uniformity ≤ 100 ∧
    0 ≤ (compute_stats h).stddev ∧
    0 ≤ (compute_stats h).chi2 :=
  ⟨compute_stats_sample_count h, compute_stats_bucket_count h,
    (compute_stats_uniformity_bounds h).1, (compute_stats_uniformity_bounds h).2,
    compute_stats_stddev_nonneg h, compute_stats_chi2_nonneg h⟩

/-- C6: a histogram with no buckets or no samples yields the record with the
two counters set and every derived metric at zero, totally (no error). -/
theorem compute_stats_degenerate (h : List ℕ) (hd : h.length = 0 ∨ h.sum = 0) :
    compute_stats h =
      { sample_count := h.sum, bucket_count := h.length, mean := 0, variance := 0,
        chi2 := 0, uniformity := 0 } ∧
    (compute_stats h).stddev = 0 := by
  have e : compute_stats h =
      { sample_count := h.sum, bucket_count := h.length, mean := 0, variance := 0,
        chi2 := 0, uniformity := 0 } := by
    simp only [compute_stats, if_pos hd]
  exact ⟨e, by simp [StatsResult.stddev, e]⟩

/-- Witness for C6 on the histogram `[0, 0]` (two buckets, zero samples). -/
theorem compute_stats_degenerate_witness :
    (([0, 0] : List ℕ).length = 0 ∨ ([0, 0] : List ℕ).sum = 0) ∧
    (compute_stats [0, 0] =
      { sample_count := ([0, 0] : List ℕ).sum, bucket_count := ([0, 0] : List ℕ).length,
        mean := 0, variance := 0, chi2 := 0, uniformity := 0 } ∧
     (compute_stats [0, 0]).stddev = 0) :=
  ⟨by decide, compute_stats_degenerate [0, 0] (by decide)⟩

theorem clamp_eq_min_max (u : ℚ) :
    (if 1 < (if u < 0 then 0 else u) then 1 else (if u < 0 then 0 else u))
      = min 1 (max 0 u) := by
  simp only [min_def, max_def]
  split_ifs <;> linarith

/-- C5: on a histogram with buckets and samples, the uniformity field of
`compute_stats` is exactly the spec's formula: 100 times the clamped fraction
`1 − max_dev/mean`. -/
theorem compute_stats_uniformity_formula (h : List ℕ)
    (h1 : h.length ≠ 0) (h2 : h.sum ≠ 0) :
    (compute_stats h).uniformity = uniformitySpec h := by
  have hd : ¬(h.length = 0 ∨ h.sum = 0) := by simp [h1, h2]
  have hmean : (0 : ℚ) < (h.sum : ℚ) / (h.length : ℚ) :=
    div_pos (by exact_mod_cast Nat.pos_of_ne_zero h2)
      (by exact_mod_cast Nat.pos_of_ne_zero h1)
  simp only [compute_stats, if_neg hd, uniformitySpec, if_pos hmean]
  rw [clamp_eq_min_max]

/-- Witness for C5 on the histogram `[1, 2]`. -/
theorem compute_stats_uniformity_formula_witness :
    ([1, 2] : List ℕ).length ≠ 0 ∧ ([1, 2] : List ℕ).sum ≠ 0 ∧
    (compute_stats [1, 2]).uniformity = uniformitySpec [1, 2] :=
  ⟨by decide, by decide,
    compute_stats_uniformity_formula [1, 2] (by decide) (by decide)⟩

theorem clamp_eq_zero_of_nonpos (u : ℚ) (hu : u ≤ 0) :
    (if 1 < (if u < 0 then 0 else u) then 1 else (if u < 0 then 0 else u)) * 100 = 0 := by
  by_cases hc : u < 0
  · simp [hc]
  · have h0 : u = 0 := le_antisymm hu (not_lt.mp hc)
    simp [hc, h0]

/-- C10: a histogram with at least two buckets, a positive sample count and
an empty bucket has uniformity exactly 0. -/
theorem compute_stats_uniformity_zero (h : List ℕ)
    (h2 : 2 ≤ h.length) (hn : 0 < h.sum) (hz : 0 ∈ h) :
    (compute_stats h).uniformity = 0 := by
  have hd : ¬(h.length = 0 ∨ h.sum = 0) := by push_neg; omega
  have hm0 : (0 : ℚ) < (h.length : ℚ) := by exact_mod_cast (by omega : 0 < h.length)
  have hmean : (0 : ℚ) < (h.sum : ℚ) / (h.length : ℚ) :=
    div_pos (by exact_mod_cast hn) hm0
  have hmin : listMin h = 0 := Nat.le_zero.mp (listMin_le_of_mem hz)
  simp only [compute_stats, if_neg hd, if_pos hmean]
  apply clamp_eq_zero_of_nonpos
  have habs : |((listMin h : ℕ) : ℚ) - (h.sum : ℚ) / (h.length : ℚ)|
      = (h.sum : ℚ) / (h.length : ℚ) := by
    rw [hmin]
    simp only [Nat.cast_zero, zero_sub, abs_neg]
    exact abs_of_pos hmean
  have hdev : (h.sum : ℚ) / (h.length : ℚ)
      ≤ max |((listMax h : ℕ) : ℚ) - (h.sum : ℚ) / (h.length : ℚ)|
            |((listMin h : ℕ) : ℚ) - (h.sum : ℚ) / (h.length : ℚ)| :=
    le_trans (le_of_eq habs.symm) (le_max_right _ _)
  have hone : (1 : ℚ) ≤ max |((listMax h : ℕ) : ℚ) - (h.sum : ℚ) / (h.length : ℚ)|
            |((listMin h : ℕ) : ℚ) - (h.sum : ℚ) / (h.length : ℚ)|
        / ((h.sum : ℚ) / (h.length : ℚ)) := (one_le_div hmean).mpr hdev
  linarith

/-- Witness for C10 on the histogram `[0, 2]`. -/
theorem compute_stats_uniformity_zero_witness :
    2 ≤ ([0, 2] : List ℕ).length ∧ 0 < ([0, 2] : List ℕ).sum ∧ 0 ∈ ([0, 2] : List ℕ) ∧
    (compute_stats [0, 2]).uniformity = 0 :=
  ⟨by decide, by decide, by decide,
    compute_stats_uniformity_zero [0, 2] (by decide) (by decide) (by decide)⟩

/-- C2 counterexample: with multiplier 1, offset 0, k = 4, the range
`[0, 128)` does NOT spread evenly over the 16 buckets — the top 4 bits of
every value below 128 are 0, so bucket 1 holds 0 samples (the claim says 8)
and the uniformity is 0 (the claim says ≈ 100). -/
theorem scenario1_counterexample :
    (distributionRange ⟨1, 0, 4⟩ 0 128).getD 1 0 = 0 ∧
    (compute_stats (distributionRange ⟨1, 0, 4⟩ 0 128)).uniformity = 0 := by
  have h : distributionRange ⟨1, 0, 4⟩ 0 128 = 128 :: List.replicate 15 0 := by decide
  constructor
  · rw [h]; rfl
  · rw [h]
    norm_num [compute_stats, listMax, listMin, List.replicate]

/-- C2 amended: with multiplier 1, offset 0, k = 4, the range `[0, 128)`
lands entirely in bucket 0 — the histogram is `[128, 0, …, 0]` — and
`compute_stats` on it gives mean 8, variance 960 (stddev `√960 ≈ 30.98`),
chi2 1920 and uniformity 0. -/
theorem scenario1_amended :
    distributionRange ⟨1, 0, 4⟩ 0 128 = 128 :: List.replicate 15 0 ∧
    compute_stats (128 :: List.replicate 15 0) =
      { sample_count := 128, bucket_count := 16, mean := 8, variance := 960,
        chi2 := 1920, uniformity := 0 } ∧
    (compute_stats (128 :: List.replicate 15 0)).stddev = Real.sqrt 960 := by
  refine ⟨by decide, ?_, ?_⟩
  · norm_num [compute_stats, listMax, listMin, List.replicate]
  · have hv : (compute_stats (128 :: List.replicate 15 0)).variance = 960 := by
      norm_num [compute_stats, listMax, listMin, List.replicate]
    simp only [StatsResult.stddev, hv]
    norm_num

theorem parseLoop_cons (t : List Char) (ts : List (List Char)) (acc : List ℕ) :
    parseLoop (t :: ts) acc =
      if 4 ≤ acc.length then none
      else
        match stoullModel t with
        | none => none
        | some v => if 255 < v then none else parseLoop ts (acc ++ [v]) := by
  cases t with
  | nil => rfl
  | cons c cs => rfl

theorem parseLoop_some_length (ts : List (List Char)) (acc parts : List ℕ)
    (h : parseLoop ts acc = some parts) :
    parts.length = acc.length + ts.length := by
  induction ts generalizing acc with
  | nil =>
    simp only [parseLoop, Option.some.injEq] at h
    simp [← h]
  | cons t ts ih =>
    rw [parseLoop_cons] at h
    by_cases h4 : 4 ≤ acc.length
    · simp [h4] at h
    · rw [if_neg h4] at h
      cases hst : stoullModel t with
      | none => rw [hst] at h; simp at h
      | some v =>
        simp only [hst] at h
        by_cases hv : 255 < v
        · simp [hv] at h
        · rw [if_neg hv] at h
          have := ih _ h
          simp only [List.length_append, List.length_cons, List.length_nil] at this ⊢
          omega

theorem parseFinish_ne_four (ts : List (List Char)) (h : ts.length ≠ 4) :
    parseFinish (parseLoop ts []) = none := by
  cases hp : parseLoop ts [] with
  | none => rfl
  | some parts =>
    have hlen := parseLoop_some_length ts [] parts hp
    simp only [List.length_nil, Nat.zero_add] at hlen
    simp [parseFinish, hlen, h]

theorem parseLoop_nil (acc : List ℕ) : parseLoop [] acc = some acc := rfl

/-- C8 counterexample: `"1.2.3.4a"` contains the token `"4a"`, which is not
composed solely of decimal digits, so the claim demands rejection; the code
accepts it as `1.2.3.4` because `std::stoull` parses the digit prefix and
ignores the trailing junk. -/
theorem parse_ipv4_counterexample :
    wellformedSpec "1.2.3.4a".data = false ∧
    parse_ipv4 "1.2.3.4a".data = some 16909060 := by
  constructor <;> decide

/-- C8 amended: `parse_ipv4` accepts exactly the strings whose getline-style
dot tokenization (a trailing empty token is not produced) yields exactly 4
tokens, each parsed by `stoull` prefix semantics (leading whitespace and sign
allowed, trailing non-digits ignored) to a value at most 255, combining the
octets with the first in the most-significant byte; in particular
`"192.168.0.1"` parses to `0xC0A80001`, `"10.0.0.1"` to `0x0A000001`, and
`"1.2.3"`, `"1.2.3.4.5"`, `"1.2.3.256"`, `"1.2.3."` are rejected. -/
theorem parse_ipv4_characterization :
    (∀ s, parse_ipv4 s = parse_ipv4Amended s) ∧
    parse_ipv4 "192.168.0.1".data = some 0xC0A80001 ∧
    parse_ipv4 "10.0.0.1".data = some 0x0A000001 ∧
    parse_ipv4 "1.2.3".data = none ∧
    parse_ipv4 "1.2.3.4.5".data = none ∧
    parse_ipv4 "1.2.3.256".data = none ∧
    parse_ipv4 "1.2.3.".data = none := by
  refine ⟨?_, by decide, by decide, by decide, by decide, by decide, by decide⟩
  intro s
  simp only [parse_ipv4, parse_ipv4Amended]
  rcases hts : getlineTokens s with _ | ⟨t0, _ | ⟨t1, _ | ⟨t2, _ | ⟨t3, _ | ⟨t4, rest⟩⟩⟩⟩⟩
  · exact parseFinish_ne_four [] (by simp)
  · exact parseFinish_ne_four [t0] (by simp)
  · exact parseFinish_ne_four [t0, t1] (by simp)
  · exact parseFinish_ne_four [t0, t1, t2] (by simp)
  · cases h0 : stoullModel t0 <;> cases h1 : stoullModel t1 <;>
      cases h2 : stoullModel t2 <;> cases h3 : stoullModel t3
    all_goals simp [parseLoop_cons, parseLoop_nil, parseFinish, h0, h1, h2, h3]
    all_goals try split_ifs
    all_goals first | rfl | omega
  · exact parseFinish_ne_four (t0 :: t1 :: t2 :: t3 :: t4 :: rest)
      (by simp only [List.length_cons]; omega)
